import Mathlib

/-!
Shallow embedding of `sync_reaper.py` (ralf-tischer/sync-reaper-python).

The program reconciles configuration files across several root directories
("locations").  This file embeds, faithfully to the Python source:

* the `ReaperIni` class (`get_section`, `overwrite_section`) over documents
  represented as lists of lines, a line being a `List Char` (the result of
  Python `readlines`, line terminators kept);
* Python `str.splitlines(keepends=True)` with its full set of line-break
  characters;
* `log_or_write`, `find_config_for_path`, `sync_file_versions`,
  `auto_update_root_files` (per-file body), and `collect_files_in_folder`.

Stateful code is embedded by explicit state passing: filesystem reads are
oracles (`fsExists`, `stat`, `walk`, `isdir`, `isfile`), operator input is an
oracle `inputs : Nat -> List Char` consumed in call order, and filesystem
mutations and log lines are reified as a trace of `Act` values which can be
replayed on a filesystem model by `applyTrace`.
-/

/-- A document line: the characters of one element of Python `readlines`,
including the trailing newline when present. -/
abbrev Line := List Char

/-- Python `str.strip()` whitespace test, restricted to the ASCII whitespace
characters (space, tab, newline, carriage return, vertical tab, form feed);
the source only ever strips section-header lines of an ini file. -/
def pyIsSpace (c : Char) : Bool :=
  c = ' ' || c = '\t' || c = '\n' || c = '\x0d' || c = Char.ofNat 11 || c = Char.ofNat 12

/-- Python `str.strip()`: drop whitespace from both ends. -/
def pyStrip (l : Line) : Line :=
  ((l.dropWhile pyIsSpace).reverse.dropWhile pyIsSpace).reverse

/-- Python `str.lower()` on a list of characters (agrees with CPython on the
ASCII characters that occur in ini section headers). -/
def pyLowerL (l : Line) : Line := l.map Char.toLower

/-- The string `f'[{section_name.lower()}]'` from `get_section` /
`overwrite_section`. -/
def headerFor (name : Line) : Line := '[' :: (pyLowerL name ++ [']'])

/-- The test `line.strip().lower() == f'[{section_name.lower()}]'`. -/
def matchesHeader (name : Line) (l : Line) : Bool :=
  pyLowerL (pyStrip l) = headerFor name

/-- The test `line.startswith('[')`. -/
def startsBracket : Line → Bool
  | [] => false
  | c :: _ => c = '['

/-- The line-break characters of Python `str.splitlines`:
LF, CR, VT, FF, FS, GS, RS, NEL, LINE SEPARATOR, PARAGRAPH SEPARATOR. -/
def isLineBreak (c : Char) : Bool :=
  c.toNat = 10 || c.toNat = 13 || c.toNat = 11 || c.toNat = 12 ||
  c.toNat = 28 || c.toNat = 29 || c.toNat = 30 || c.toNat = 133 ||
  c.toNat = 8232 || c.toNat = 8233

/-- Worker for Python `str.splitlines(keepends=True)`: `cur` is the part of the
current line accumulated so far; a `"\r\n"` pair counts as a single break. -/
def slGo (cur : List Char) : List Char → List (List Char)
  | [] => if cur.isEmpty then [] else [cur]
  | '\x0d' :: '\n' :: rest => (cur ++ ['\x0d', '\n']) :: slGo [] rest
  | '\x0d' :: rest => (cur ++ ['\x0d']) :: slGo [] rest
  | c :: rest =>
    if isLineBreak c then (cur ++ [c]) :: slGo [] rest
    else slGo (cur ++ [c]) rest

/-- Python `content.splitlines(keepends=True)` from `overwrite_section`. -/
def splitlinesKeepends (s : List Char) : List (List Char) := slGo [] s

/-- State of the scanning loop of `ReaperIni.get_section`: whether the header
was seen (`in_section` / `start_idx is not None`) and the accumulated
`section_lines`.  The loop `break`s at the first line that starts with `[` and
is not the requested header while inside the section. -/
def getSectionGo (name : Line) (inSec : Bool) (acc : List Line) :
    List Line → Bool × List Line
  | [] => (inSec, acc)
  | l :: ls =>
    if matchesHeader name l then getSectionGo name true [l] ls
    else if inSec then
      if startsBracket l && !(matchesHeader name l) then (inSec, acc)
      else getSectionGo name true (acc ++ [l]) ls
    else getSectionGo name inSec acc ls

/-- `ReaperIni.get_section`: the section content (header line included) as one
string, or the empty string when the header never occurs. -/
def get_section (lines : List Line) (name : Line) : List Char :=
  let r := getSectionGo name false [] lines
  if r.1 then r.2.flatten else []

/-- The scanning loop of `ReaperIni.overwrite_section`: returns
`(start_idx, end_idx)` as the Python loop leaves them (`end_idx = none` when
the loop ran to the end of the document). -/
def owGo (name : Line) (idx : Nat) (start : Option Nat) (inSec : Bool) :
    List Line → Option Nat × Option Nat
  | [] => (start, none)
  | l :: ls =>
    if matchesHeader name l then owGo name (idx + 1) (some idx) true ls
    else if inSec then
      if startsBracket l && !(matchesHeader name l) then (start, some idx)
      else owGo name (idx + 1) start true ls
    else owGo name (idx + 1) start inSec ls

/-- The test `self.lines[-1].endswith('\n')`. -/
def lineEndsNewline (l : Line) : Bool :=
  match l.getLast? with
  | some c => c = '\n'
  | none => false

/-- `ReaperIni.overwrite_section` on the in-memory line list: replace the
extent `[start_idx, end_idx)` with `content.splitlines(keepends=True)`, or
append at the end (after a separating `'\n'` when the last line lacks one)
when the header never occurs.  The Python method then rewrites the file with
exactly these lines, so the written file content is their concatenation. -/
def overwrite_section (lines : List Line) (name : Line) (content : List Char) :
    List Line :=
  let r := owGo name 0 none false lines
  let contentLines := splitlinesKeepends content
  match r.1 with
  | some s =>
    let e := match r.2 with
      | some e => e
      | none => lines.length
    lines.take s ++ contentLines ++ lines.drop e
  | none =>
    match lines.getLast? with
    | none => lines ++ contentLines
    | some last =>
      if lineEndsNewline last then lines ++ contentLines
      else lines ++ ['\n'] :: contentLines

/-- A filesystem path, modelled as its list of components.  The Python source
manipulates absolute path strings; `os.path.abspath` is the identity on them,
and `os.path.join` appends one component (joining with the empty string, as
`collect_files_in_folder` does for the root folder, appends nothing). -/
abbrev FsPath := List String

/-- `os.path.join(base, folder)` where `folder` may be the empty string. -/
def joinDir (base : FsPath) (folder : String) : FsPath :=
  if folder = "" then base else base ++ [folder]

/-- The dictionary returned by `get_file_properties`: size, modification time
and creation time from `os.stat`.  Timestamps are modelled as integers; the
code only ever compares them for equality and order. -/
structure Props where
  size : Nat
  mtime : Int
  ctime : Int
  deriving DecidableEq, Repr, Inhabited

/-- One entry of `COMPARE_PATHS`: a config label and a root path. -/
structure Loc where
  config : String
  path : FsPath
  deriving DecidableEq, Repr, Inhabited

/-- The `action` argument of `log_or_write` (both branches run
`shutil.copy2`). -/
inductive CopyKind
  | copy
  | update
  deriving DecidableEq, Repr

/-- Log lines emitted through `log_print`, reified as tagged events carrying
the data interpolated into the corresponding Python f-string. -/
inductive LogMsg
  | newFileDetected (fname : String) (config : Option String)
      (basePath : Option FsPath) (size : Nat) (mtime : Int)
  | newFileResponse (fname : String) (targetConfig : Option String)
      (resp : List Char)
  | wouldCopy (kind : CopyKind) (src dst : FsPath)
  | didCopy (kind : CopyKind) (src dst : FsPath)
  | multipleVersions (fname : String)
  | versionListing (idx : Nat) (p : FsPath) (config : Option String)
      (basePath : Option FsPath) (size : Nat) (mtime : Int)
  | choseVersion (choice : List Char) (fname : String)
  | invalidChoice
  | autoCopied (src dst : FsPath)
  | autoUpdated (dst src : FsPath)
  | updatingSection (name : Line)
  | wouldUpdateSection (name : Line)
  | sectionUpdated (name : Line)
  | noSectionFound (name : Line)
  deriving DecidableEq, Repr

/-- Observable effects of a pass: directory creation (`os.makedirs`), a file
copy (`shutil.copy2`), or a log line.  Only `copy2` and `makedirs` mutate the
filesystem. -/
inductive Act
  | makedirs (dir : FsPath)
  | copy2 (src dst : FsPath)
  | log (msg : LogMsg)
  deriving DecidableEq, Repr

/-- `log_or_write`: in test mode only a log line, otherwise `shutil.copy2`
followed by a log line (the `copy` and `update` actions both copy). -/
def log_or_write (testMode : Bool) (kind : CopyKind) (src dst : FsPath) :
    List Act :=
  if testMode then [Act.log (.wouldCopy kind src dst)]
  else [Act.copy2 src dst, Act.log (.didCopy kind src dst)]

/-- `find_config_for_path`: the first configured path whose
`folder` subdirectory is an ancestor of (or equal to) `fpath`
(`os.path.commonpath([fpath, folder_path]) == folder_path`), as a
`(config, base_path)` pair, or `(None, None)`. -/
def find_config_for_path (fpath : FsPath) (folder : String)
    (paths : List Loc) : Option String × Option FsPath :=
  match paths.find? (fun p => List.isPrefixOf (joinDir p.path folder) fpath) with
  | some p => (some p.config, some p.path)
  | none => (none, none)

/-- The digits-only core of Python `int(str)`: `none` models the `ValueError`
raised on an empty or non-numeric string. -/
def digitsToNat (ds : List Char) : Option Nat :=
  if ds.isEmpty then none
  else if ds.all Char.isDigit then
    some (ds.foldl (fun n c => 10 * n + (c.toNat - 48)) 0)
  else none

/-- Python `int(choice)` on operator input: strip whitespace, optional sign,
then decimal digits; `none` models the `ValueError` caught by the
`except` clause of `sync_file_versions`. -/
def pyInt (s : List Char) : Option Int :=
  match pyStrip s with
  | '+' :: ds => (digitsToNat ds).map (fun n => (n : Int))
  | '-' :: ds => (digitsToNat ds).map (fun n => -(n : Int))
  | ds => (digitsToNat ds).map (fun n => (n : Int))

/-- Python list indexing `l[i]` with an `int` index: negative indices count
from the end; `none` models the `IndexError` caught by the `except` clause
of `sync_file_versions`. -/
def pyGet {α : Type} (l : List α) (i : Int) : Option α :=
  if 0 ≤ i then l[i.toNat]?
  else if 0 ≤ i + l.length then l[(i + l.length).toNat]?
  else none

/-- The `for path in paths` loop of the single-version branch of
`sync_file_versions` (lines 143-155): for every configured path whose copy of
the file does not exist, log the detection, consume one operator response
(`inputs k` is the value of the `k`-th `input()` call of the pass), and when
the response lowercases to `"y"`, create the target directory and run
`log_or_write("copy", ...)`. -/
def newFileLoop (testMode : Bool) (fname folder : String) (onlyPath : FsPath)
    (onlyProps : Props) (cfg : Option String × Option FsPath)
    (allPaths : List Loc) (fsExists : FsPath → Bool)
    (inputs : Nat → List Char) : List Loc → Nat → List Act
  | [], _ => []
  | p :: ps, k =>
    let target := joinDir p.path folder ++ [fname]
    let tcfg := find_config_for_path target folder allPaths
    if fsExists target then
      newFileLoop testMode fname folder onlyPath onlyProps cfg allPaths
        fsExists inputs ps k
    else
      let resp := inputs k
      [Act.log (.newFileDetected fname cfg.1 cfg.2 onlyProps.size onlyProps.mtime),
       Act.log (.newFileResponse fname tcfg.1 resp)] ++
      (if pyLowerL resp = ['y'] then
        Act.makedirs target.dropLast :: log_or_write testMode .copy onlyPath target
      else []) ++
      newFileLoop testMode fname folder onlyPath onlyProps cfg allPaths
        fsExists inputs ps (k + 1)

/-- `sync_file_versions`: the per-file interactive resolution.  `versions` is
the inventory entry for `fname` (`none` models the `IndexError` the Python
code would raise on an empty list).  The result is the returned boolean
together with the trace of effects.  The unused Python parameters
`root_files` and `reaper_ini_sections` are omitted. -/
def sync_file_versions (testMode : Bool) (fname : String)
    (versions : List (FsPath × Props)) (folder : String) (paths : List Loc)
    (fsExists : FsPath → Bool) (inputs : Nat → List Char) :
    Option (Bool × List Act) :=
  match versions with
  | [] => none
  | [(onlyPath, onlyProps)] =>
    let cfg := find_config_for_path onlyPath folder paths
    some (true, newFileLoop testMode fname folder onlyPath onlyProps cfg paths
      fsExists inputs paths 0)
  | v1 :: v2 :: rest =>
    let vs := v1 :: v2 :: rest
    let mtimes := (vs.map (fun v => v.2.mtime)).dedup
    let sizes := (vs.map (fun v => v.2.size)).dedup
    if mtimes.length = 1 ∧ sizes.length = 1 then some (false, [])
    else
      let sorted := List.insertionSort (fun a b => b.2.mtime ≤ a.2.mtime) vs
      let headerLogs := Act.log (.multipleVersions fname) ::
        sorted.enum.map (fun e =>
          let c := find_config_for_path e.2.1 folder paths
          Act.log (.versionListing (e.1 + 1) e.2.1 c.1 c.2 e.2.2.size e.2.2.mtime))
      let choice := inputs 0
      let logs := headerLogs ++ [Act.log (.choseVersion choice fname)]
      match pyInt choice with
      | none => some (false, logs ++ [Act.log .invalidChoice])
      | some n =>
        match pyGet sorted (n - 1) with
        | none => some (false, logs ++ [Act.log .invalidChoice])
        | some keep =>
          let upds := (sorted.enum.map (fun e =>
            if (e.1 : Int) ≠ n - 1 then log_or_write testMode .update keep.1 e.2.1
            else [])).flatten
          some (true, logs ++ upds)

/-- The body of the `for _, versions in file_versions.items()` loop of
`auto_update_root_files` for one inventory entry: unconditional propagation of
a single version to every path missing it, otherwise `shutil.copy2` from the
newest version onto every older one whose size or mtime differs.  This
function never consults a test-mode flag, exactly as the Python source never
consults `TEST_MODE` here. -/
def autoEntry (paths : List Loc) (fname : String)
    (versions : List (FsPath × Props)) (fsExists : FsPath → Bool) :
    Option (List Act) :=
  match versions with
  | [] => none
  | [(onlyPath, _)] =>
    some ((paths.map (fun p =>
      let target := p.path ++ [fname]
      if fsExists target then []
      else [Act.makedirs target.dropLast, Act.copy2 onlyPath target,
            Act.log (.autoCopied onlyPath target)])).flatten)
  | v1 :: v2 :: rest =>
    let sorted := List.insertionSort (fun a b => b.2.mtime ≤ a.2.mtime) (v1 :: v2 :: rest)
    match sorted with
    | [] => none
    | newest :: olds =>
      some ((olds.map (fun old =>
        if newest.1 ≠ old.1 then
          if newest.2.size ≠ old.2.size ∨ newest.2.mtime ≠ old.2.mtime then
            [Act.copy2 newest.1 old.1, Act.log (.autoUpdated old.1 newest.1)]
          else []
        else [])).flatten)

/-- The inventory built by `collect_files_in_folder`: relative path (or root
file name) to the list of copies, in insertion order. -/
abbrev Inventory := List (String × List (FsPath × Props))

/-- `file_versions.setdefault(key, []).append(v)` on an insertion-ordered
dictionary. -/
def addVersion (m : Inventory) (key : String) (v : FsPath × Props) : Inventory :=
  match m with
  | [] => [(key, [v])]
  | (k, vs) :: rest =>
    if k = key then (k, vs ++ [v]) :: rest
    else (k, vs) :: addVersion rest key v

/-- `os.path.relpath(fpath, folder_path)` for a file below `folder_path`,
rendered as the joined remaining components. -/
def relKey (folderPath fpath : FsPath) : String :=
  String.intercalate "/" (fpath.drop folderPath.length)

/-- The `for fname in files` loop of the recursive branch of
`collect_files_in_folder`: `stat` returning `none` models `os.stat` raising
(for a file that vanished after enumeration); the exception propagates, so
the whole collection returns `none`. -/
def statFiles (stat : FsPath → Option Props) (folderPath root : FsPath)
    (acc : Inventory) : List String → Option Inventory
  | [] => some acc
  | f :: fs =>
    match stat (root ++ [f]) with
    | none => none
    | some props =>
      statFiles stat folderPath root
        (addVersion acc (relKey folderPath (root ++ [f])) (root ++ [f], props)) fs

/-- The `for root, _, files in os.walk(folder_path)` loop. -/
def walkFold (stat : FsPath → Option Props) (folderPath : FsPath)
    (acc : Inventory) : List (FsPath × List String) → Option Inventory
  | [] => some acc
  | (root, files) :: rest =>
    match statFiles stat folderPath root acc files with
    | none => none
    | some acc' => walkFold stat folderPath acc' rest

/-- The `for fname in root_files` loop of the root branch of
`collect_files_in_folder` (keys are the bare file names). -/
def rootScan (stat : FsPath → Option Props) (isfile : FsPath → Bool)
    (folderPath : FsPath) (acc : Inventory) : List String → Option Inventory
  | [] => some acc
  | fname :: rest =>
    let fpath := folderPath ++ [fname]
    if isfile fpath then
      match stat fpath with
      | none => none
      | some props =>
        rootScan stat isfile folderPath (addVersion acc fname (fpath, props)) rest
    else rootScan stat isfile folderPath acc rest

/-- Python truthiness of the `root_files` argument (`None` and `[]` are
falsy). -/
def rootFilesTruthy : Option (List String) → Bool
  | some (_ :: _) => true
  | _ => false

/-- The `for path in paths` loop of `collect_files_in_folder`. -/
def collectGo (folder : String) (root_files : Option (List String))
    (isdir : FsPath → Bool) (isfile : FsPath → Bool)
    (walk : FsPath → List (FsPath × List String))
    (stat : FsPath → Option Props) : List Loc → Inventory → Option Inventory
  | [], acc => some acc
  | p :: ps, acc =>
    let folderPath := joinDir p.path folder
    if !(isdir folderPath) then
      collectGo folder root_files isdir isfile walk stat ps acc
    else if folder = "" ∧ rootFilesTruthy root_files then
      match rootScan stat isfile folderPath acc (root_files.getD []) with
      | none => none
      | some acc' => collectGo folder root_files isdir isfile walk stat ps acc'
    else
      match walkFold stat folderPath acc (walk folderPath) with
      | none => none
      | some acc' => collectGo folder root_files isdir isfile walk stat ps acc'

/-- `collect_files_in_folder`, with the filesystem read through the oracles
`isdir`, `isfile`, `walk` and `stat`.  `none` models an uncaught `OSError`
from `os.stat` aborting the collection. -/
def collect_files_in_folder (folder : String) (paths : List Loc)
    (root_files : Option (List String)) (isdir : FsPath → Bool)
    (isfile : FsPath → Bool) (walk : FsPath → List (FsPath × List String))
    (stat : FsPath → Option Props) : Option Inventory :=
  collectGo folder root_files isdir isfile walk stat paths []

/-- Python `str.lower()` on a `String`. -/
def pyLowerS (s : String) : String := String.map Char.toLower s

/-- The `for _, versions in file_versions.items()` loop of
`auto_update_root_files`; the dictionary key is discarded (the Python code
binds it to `_`) and the outer loop's `fname` is used for target paths. -/
def autoInvGo (paths : List Loc) (fname : String) (fsExists : FsPath → Bool) :
    Inventory → Option (List Act)
  | [] => some []
  | e :: rest =>
    match autoEntry paths fname e.2 fsExists with
    | none => none
    | some tr => (autoInvGo paths fname fsExists rest).map (fun tr' => tr ++ tr')

/-- `auto_update_root_files`: for every allow-listed root file other than
`reaper.ini`, collect its copies and run the automatic-replace body.  Exactly
as in the source, no test-mode flag is consulted anywhere on this path. -/
def auto_update_root_files (paths : List Loc) (root_files : List String)
    (isdir : FsPath → Bool) (isfile : FsPath → Bool)
    (walk : FsPath → List (FsPath × List String)) (stat : FsPath → Option Props)
    (fsExists : FsPath → Bool) : Option (List Act) :=
  match root_files with
  | [] => some []
  | fname :: rest =>
    if pyLowerS fname = "reaper.ini" then
      auto_update_root_files paths rest isdir isfile walk stat fsExists
    else
      match collect_files_in_folder "" paths (some [fname]) isdir isfile walk stat with
      | none => none
      | some inv =>
        match autoInvGo paths fname fsExists inv with
        | none => none
        | some tr =>
          (auto_update_root_files paths rest isdir isfile walk stat fsExists).map
            (fun tr' => tr ++ tr')

/-- Observable effects of the `reaper.ini` section-merge pass: a log line, or
the whole-file rewrite that `ReaperIni.overwrite_section` performs
(`open(filepath, 'w')` + `writelines`) — a filesystem write of the named
file with the given new line list. -/
inductive IniAct
  | rewrite (path : FsPath) (lines : List Line)
  | log (msg : LogMsg)
  deriving DecidableEq, Repr

/-- `update_reaper_ini_sections` on in-memory documents: for each configured
section name, extract it from the newest document and, unless in test mode,
overwrite it in the old document — each live `overwrite_section` call
rewrites `oldPath` on disk, reified as an `IniAct.rewrite`.  Returns the
resulting old document and the event trace; in test mode the old document is
returned unchanged and nothing is written.  Note: no `(size, mtime)`
comparison appears anywhere on this path. -/
def update_reaper_ini_sections (testMode : Bool) (oldPath : FsPath)
    (oldLines newLines : List Line) : List Line → List Line × List IniAct
  | [] => (oldLines, [])
  | s :: rest =>
    let content := get_section newLines s
    if content.isEmpty then
      let r := update_reaper_ini_sections testMode oldPath oldLines newLines rest
      (r.1, [IniAct.log (.updatingSection s), IniAct.log (.noSectionFound s)] ++ r.2)
    else if testMode then
      let r := update_reaper_ini_sections testMode oldPath oldLines newLines rest
      (r.1, [IniAct.log (.updatingSection s), IniAct.log (.wouldUpdateSection s),
             IniAct.log (.sectionUpdated s)] ++ r.2)
    else
      let newOld := overwrite_section oldLines s content
      let r := update_reaper_ini_sections testMode oldPath newOld newLines rest
      (r.1, [IniAct.log (.updatingSection s), IniAct.rewrite oldPath newOld,
             IniAct.log (.sectionUpdated s)] ++ r.2)

/-- The `for fname, versions in file_versions.items()` loop of
`auto_update_reaper_ini_sections`: fewer than two copies are skipped;
otherwise the copies are sorted by mtime descending and every older copy with
a distinct path gets the section merge from the newest — with NO comparison
of size or mtime anywhere.  `readDoc` models `ReaperIni.__init__`'s
`readlines` of each document. -/
def iniInvGo (testMode : Bool) (sections : List Line)
    (readDoc : FsPath → List Line) : Inventory → List IniAct
  | [] => []
  | e :: rest =>
    (match e.2 with
     | v1 :: v2 :: vs =>
       match List.insertionSort (fun a b => b.2.mtime ≤ a.2.mtime)
           (v1 :: v2 :: vs) with
       | [] => []
       | newest :: olds =>
         (olds.map (fun old =>
           if newest.1 ≠ old.1 then
             (update_reaper_ini_sections testMode old.1 (readDoc old.1)
               (readDoc newest.1) sections).2
           else [])).flatten
     | _ => []) ++ iniInvGo testMode sections readDoc rest

/-- `auto_update_reaper_ini_sections`: collect the `reaper.ini` copies and
run the per-file section merge over the inventory. -/
def auto_update_reaper_ini_sections (testMode : Bool) (paths : List Loc)
    (sections : List Line) (isdir isfile : FsPath → Bool)
    (walk : FsPath → List (FsPath × List String)) (stat : FsPath → Option Props)
    (readDoc : FsPath → List Line) : Option (List IniAct) :=
  match collect_files_in_folder "" paths (some ["reaper.ini"]) isdir isfile
      walk stat with
  | none => none
  | some inv => some (iniInvGo testMode sections readDoc inv)

/-- A filesystem model: each existing file's recorded properties. -/
abbrev Fs := FsPath → Option Props

/-- Effect of one action on the filesystem model: `shutil.copy2` makes the
target an exact copy of the source, size and modification time included
(`copy2` preserves metadata); directory creation and logging leave every
file's properties unchanged. -/
def applyAction (fs : Fs) : Act → Fs
  | .copy2 src dst => fun q => if q = dst then fs src else fs q
  | _ => fs

/-- Replay a trace of actions on the filesystem model. -/
def applyTrace (fs : Fs) : List Act → Fs
  | [] => fs
  | a :: tr => applyTrace (applyAction fs a) tr

/-- A line as produced by `readlines` on a well-formed text file: terminated
by `'\n'` and containing no other character that Python `splitlines` treats
as a line break.  Such lines survive the join-then-splitlines round trip that
`overwrite_section` applies to `get_section` output. -/
def ProperLine (l : Line) : Prop :=
  l ≠ [] ∧ l.getLast? = some '\n' ∧ ∀ c ∈ l.dropLast, isLineBreak c = false

instance (l : Line) : Decidable (ProperLine l) := by
  unfold ProperLine; infer_instance

/-- A section terminator at the head of `rest`, or the end of the document. -/
def SectionEnd (name : Line) (rest : List Line) : Prop :=
  rest = [] ∨ ∃ t rs, rest = t :: rs ∧ startsBracket t = true ∧
    matchesHeader name t = false

/-- A document whose header `[s]` occurs twice, separated by another section
`[t]`: the scan of `get_section` / `overwrite_section` breaks at `[t]`, so
both operate on the FIRST occurrence, which bears on C9's "last matching
header" claim. -/
def c9doc : List Line :=
  [['[', 's', ']', '\n'], ['a', '\n'], ['[', 't', ']', '\n'],
   ['[', 's', ']', '\n'], ['b', '\n']]

lemma properLine_decomp {l : Line} (h : ProperLine l) :
    ∃ core, l = core ++ ['\n'] ∧ ∀ c ∈ core, isLineBreak c = false := by
  obtain ⟨hne, hlast, hcore⟩ := h
  refine ⟨l.dropLast, ?_, hcore⟩
  have := List.dropLast_append_getLast hne
  rw [List.getLast?_eq_getLast l hne] at hlast
  have hl : l.getLast hne = '\n' := by injection hlast
  rw [hl] at this
  exact this.symm

lemma slGo_cons_ne (cur : List Char) (c : Char) (rest : List Char)
    (hc : c ≠ '\x0d') :
    slGo cur (c :: rest) =
      if isLineBreak c then (cur ++ [c]) :: slGo [] rest
      else slGo (cur ++ [c]) rest :=
  slGo.eq_4 cur c rest (fun _ h _ => hc h) (fun h => hc h)

lemma slGo_append_core {core : List Char}
    (hcore : ∀ c ∈ core, isLineBreak c = false) (cur rest : List Char) :
    slGo cur ((core ++ ['\n']) ++ rest) = (cur ++ (core ++ ['\n'])) :: slGo [] rest := by
  induction core generalizing cur with
  | nil =>
    have hne : ('\n' : Char) ≠ '\x0d' := by decide
    have hbr : isLineBreak '\n' = true := by decide
    show slGo cur ('\n' :: rest) = (cur ++ ([] ++ ['\n'])) :: slGo [] rest
    rw [slGo_cons_ne cur '\n' rest hne, hbr]
    simp
  | cons c core ih =>
    have hcne : isLineBreak c = false := hcore c (List.mem_cons_self c core)
    have hc : c ≠ '\x0d' := by
      intro h
      rw [h] at hcne
      exact absurd hcne (by decide)
    show slGo cur (c :: ((core ++ ['\n']) ++ rest)) = _
    rw [slGo_cons_ne cur c _ hc, hcne]
    simp only [Bool.false_eq_true, if_false]
    rw [ih (fun x hx => hcore x (List.mem_cons_of_mem c hx))]
    simp

lemma slGo_proper {l : Line} (hl : ProperLine l) (cur rest : List Char) :
    slGo cur (l ++ rest) = (cur ++ l) :: slGo [] rest := by
  obtain ⟨core, rfl, hcore⟩ := properLine_decomp hl
  exact slGo_append_core hcore cur rest

/-- Splitting the concatenation of proper lines recovers exactly those
lines. -/
lemma splitlines_flatten_proper {ls : List Line} (h : ∀ l ∈ ls, ProperLine l) :
    splitlinesKeepends ls.flatten = ls := by
  induction ls with
  | nil => rfl
  | cons l ls ih =>
    unfold splitlinesKeepends
    rw [List.flatten_cons, slGo_proper (h l (List.mem_cons_self l ls))]
    rw [List.nil_append]
    exact congrArg (l :: ·) (ih (fun x hx => h x (List.mem_cons_of_mem l hx)))

lemma getSectionGo_skip {name : Line} {pre rest acc : List Line}
    (h : ∀ l ∈ pre, matchesHeader name l = false) :
    getSectionGo name false acc (pre ++ rest) = getSectionGo name false acc rest := by
  induction pre with
  | nil => rfl
  | cons l pre ih =>
    have hl := h l (List.mem_cons_self l pre)
    simp only [List.cons_append, getSectionGo, hl, Bool.false_eq_true, if_false]
    exact ih (fun x hx => h x (List.mem_cons_of_mem l hx))

lemma getSectionGo_body {name : Line} {body rest : List Line} {acc : List Line}
    (h : ∀ l ∈ body, matchesHeader name l = false ∧ startsBracket l = false) :
    getSectionGo name true acc (body ++ rest) =
      getSectionGo name true (acc ++ body) rest := by
  induction body generalizing acc with
  | nil => simp
  | cons l body ih =>
    have hl := h l (List.mem_cons_self l body)
    simp only [List.cons_append, getSectionGo, hl.1, hl.2, Bool.false_eq_true,
      if_false, Bool.false_and, if_true]
    rw [show body.append rest = body ++ rest from rfl,
      ih (fun x hx => h x (List.mem_cons_of_mem l hx))]
    simp

lemma getSectionGo_term {name : Line} {t : Line} {rest acc : List Line}
    (hb : startsBracket t = true) (hm : matchesHeader name t = false) :
    getSectionGo name true acc (t :: rest) = (true, acc) := by
  simp [getSectionGo, hb, hm]

/-- `get_section` on a document decomposed around the (unique run of the)
requested header: the result is the header line plus body, concatenated. -/
lemma get_section_structured {name : Line} {pre body rest : List Line} {hd : Line}
    (hpre : ∀ l ∈ pre, matchesHeader name l = false)
    (hh : matchesHeader name hd = true)
    (hbody : ∀ l ∈ body, matchesHeader name l = false ∧ startsBracket l = false)
    (hrest : SectionEnd name rest) :
    get_section (pre ++ hd :: (body ++ rest)) name = (hd :: body).flatten := by
  unfold get_section
  rw [getSectionGo_skip hpre]
  simp only [getSectionGo, hh, if_true]
  rw [getSectionGo_body hbody]
  rcases hrest with rfl | ⟨t, rs, rfl, hb, hm⟩
  · simp [getSectionGo]
  · rw [getSectionGo_term hb hm]
    simp

lemma owGo_skip {name : Line} {pre rest : List Line} (idx : Nat)
    (start : Option Nat) (h : ∀ l ∈ pre, matchesHeader name l = false) :
    owGo name idx start false (pre ++ rest) =
      owGo name (idx + pre.length) start false rest := by
  induction pre generalizing idx with
  | nil => simp
  | cons l pre ih =>
    have hl := h l (List.mem_cons_self l pre)
    have harith : idx + (l :: pre).length = (idx + 1) + pre.length := by
      simp only [List.length_cons]; omega
    rw [harith]
    simp only [List.cons_append, owGo, hl, Bool.false_eq_true, if_false]
    exact ih (idx + 1) (fun x hx => h x (List.mem_cons_of_mem l hx))

lemma owGo_body {name : Line} {body rest : List Line} (idx : Nat)
    (start : Option Nat)
    (h : ∀ l ∈ body, matchesHeader name l = false ∧ startsBracket l = false) :
    owGo name idx start true (body ++ rest) =
      owGo name (idx + body.length) start true rest := by
  induction body generalizing idx with
  | nil => simp
  | cons l body ih =>
    have hl := h l (List.mem_cons_self l body)
    have harith : idx + (l :: body).length = (idx + 1) + body.length := by
      simp only [List.length_cons]; omega
    rw [harith]
    simp only [List.cons_append, owGo, hl.1, hl.2, Bool.false_eq_true, if_false,
      Bool.false_and, if_true]
    exact ih (idx + 1) (fun x hx => h x (List.mem_cons_of_mem l hx))

lemma owGo_term {name : Line} {t : Line} {rest : List Line} (idx : Nat)
    (start : Option Nat) (hb : startsBracket t = true)
    (hm : matchesHeader name t = false) :
    owGo name idx start true (t :: rest) = (start, some idx) := by
  simp [owGo, hb, hm]

/-- `overwrite_section` on a document decomposed around the requested header:
the extent from the header to the terminator (or end of document) is replaced
by the split content; everything before and after is untouched. -/
lemma overwrite_section_structured {name : Line} {pre body rest : List Line}
    {hd : Line} (content : List Char)
    (hpre : ∀ l ∈ pre, matchesHeader name l = false)
    (hh : matchesHeader name hd = true)
    (hbody : ∀ l ∈ body, matchesHeader name l = false ∧ startsBracket l = false)
    (hrest : SectionEnd name rest) :
    overwrite_section (pre ++ hd :: (body ++ rest)) name content =
      pre ++ splitlinesKeepends content ++ rest := by
  unfold overwrite_section
  rw [owGo_skip 0 none hpre]
  simp only [getSectionGo, owGo, hh, if_true, Nat.zero_add]
  rw [owGo_body (pre.length + 1) (some pre.length) hbody]
  rcases hrest with rfl | ⟨t, rs, rfl, hb, hm⟩
  · simp only [List.append_nil, owGo]
    rw [List.take_left' rfl]
    rw [List.drop_length]
    simp
  · rw [owGo_term (pre.length + 1 + body.length) (some pre.length) hb hm]
    simp only
    rw [List.take_left' rfl]
    have hshape : pre ++ hd :: (body ++ t :: rs) = (pre ++ hd :: body) ++ (t :: rs) := by
      simp
    have hlen : (pre ++ hd :: body).length = pre.length + 1 + body.length := by
      simp [List.length_append, List.length_cons]; omega
    rw [hshape, List.drop_left' hlen]

/-- Counterexample to C5 as stated: document A's single section `[s]` has the
body line `x\f[y]z` — a legitimate `readlines` line, since `readlines` splits
only on newline — and document B has its own `[s]` section.  The merge
splices `splitlines` output into B, which re-cuts A's body line at the form
feed; re-extracting section `[s]` from the merged B yields `"[s]\nx\f"`,
which is not A's section `"[s]\nx\f[y]z\n"`. -/
theorem claim_C5_counterexample :
    (([['[', 's', ']', '\n'],
       ['x', Char.ofNat 12, '[', 'y', ']', 'z', '\n']] : List Line).countP
      (fun l => matchesHeader ['s'] l) = 1) ∧
    (([['[', 's', ']', '\n'], ['a', '\n']] : List Line).countP
      (fun l => matchesHeader ['s'] l) = 1) ∧
    get_section (overwrite_section [['[', 's', ']', '\n'], ['a', '\n']] ['s']
        (get_section [['[', 's', ']', '\n'],
          ['x', Char.ofNat 12, '[', 'y', ']', 'z', '\n']] ['s'])) ['s'] ≠
      get_section [['[', 's', ']', '\n'],
        ['x', Char.ofNat 12, '[', 'y', ']', 'z', '\n']] ['s'] := by
  refine ⟨by decide, by decide, by decide⟩

/-- C5 amended: after merging section `S` from document A into document B by
`overwrite_section(S, A.get_section(S))`, every line of B outside section
`S`'s extent (the lines before the header and the lines from the terminating
bracket line on) is byte-for-byte unchanged, and B's section `S` — header
line included — equals A's section `S` exactly, with A's header casing,
since A's literal header line `hdA` is spliced in — PROVIDED A's section
lines are proper `readlines` lines (newline-terminated, with no embedded
Python-`splitlines` break character).  Without that proviso the `splitlines`
call inside `overwrite_section` re-cuts A's section lines and the merged
section can differ from A's, as the counterexample shows.  The documents are
decomposed around their single occurrence of the section header. -/

theorem claim_C5_section_merge (name : Line)
    (preA bodyA restA preB bodyB restB : List Line) (hdA hdB : Line)
    (hpreA : ∀ l ∈ preA, matchesHeader name l = false)
    (hhA : matchesHeader name hdA = true)
    (hbodyA : ∀ l ∈ bodyA, matchesHeader name l = false ∧ startsBracket l = false)
    (hrestA : SectionEnd name restA)
    (hpreB : ∀ l ∈ preB, matchesHeader name l = false)
    (hhB : matchesHeader name hdB = true)
    (hbodyB : ∀ l ∈ bodyB, matchesHeader name l = false ∧ startsBracket l = false)
    (hrestB : SectionEnd name restB)
    (hproper : ∀ l ∈ hdA :: bodyA, ProperLine l) :
    overwrite_section (preB ++ hdB :: (bodyB ++ restB)) name
        (get_section (preA ++ hdA :: (bodyA ++ restA)) name) =
      preB ++ (hdA :: bodyA) ++ restB ∧
    get_section (overwrite_section (preB ++ hdB :: (bodyB ++ restB)) name
        (get_section (preA ++ hdA :: (bodyA ++ restA)) name)) name =
      get_section (preA ++ hdA :: (bodyA ++ restA)) name := by
  have hA : get_section (preA ++ hdA :: (bodyA ++ restA)) name =
      (hdA :: bodyA).flatten := get_section_structured hpreA hhA hbodyA hrestA
  have hsplit : splitlinesKeepends (hdA :: bodyA).flatten = hdA :: bodyA :=
    splitlines_flatten_proper hproper
  have hover : overwrite_section (preB ++ hdB :: (bodyB ++ restB)) name
      (get_section (preA ++ hdA :: (bodyA ++ restA)) name) =
      preB ++ (hdA :: bodyA) ++ restB := by
    rw [hA, overwrite_section_structured _ hpreB hhB hbodyB hrestB, hsplit]
  refine ⟨hover, ?_⟩
  rw [hover, hA]
  rw [show preB ++ (hdA :: bodyA) ++ restB = preB ++ hdA :: (bodyA ++ restB)
    from by simp]
  exact get_section_structured hpreB hhA hbodyA hrestB

/-- Witness for C5 on the spec's scenario: section `Recent` is merged from a
newer document (lines `[Recent]`, `b.rpp`, `c.rpp`) into an older one whose
`[recent]` header has different casing and whose other lines (`x` before,
`[Theme]`/`dark` after) are untouched. -/
theorem claim_C5_section_merge_witness :
    overwrite_section ([['x', '\n']] ++ ['[', 'r', 'e', 'c', 'e', 'n', 't', ']', '\n'] ::
        ([['a', '.', 'r', 'p', 'p', '\n']] ++
          [['[', 'T', 'h', 'e', 'm', 'e', ']', '\n'], ['d', 'a', 'r', 'k', '\n']]))
      ['R', 'e', 'c', 'e', 'n', 't']
        (get_section ([] ++ ['[', 'R', 'e', 'c', 'e', 'n', 't', ']', '\n'] ::
          ([['b', '.', 'r', 'p', 'p', '\n'], ['c', '.', 'r', 'p', 'p', '\n']] ++ []))
        ['R', 'e', 'c', 'e', 'n', 't']) =
      [['x', '\n']] ++ (['[', 'R', 'e', 'c', 'e', 'n', 't', ']', '\n'] ::
        [['b', '.', 'r', 'p', 'p', '\n'], ['c', '.', 'r', 'p', 'p', '\n']]) ++
        [['[', 'T', 'h', 'e', 'm', 'e', ']', '\n'], ['d', 'a', 'r', 'k', '\n']] ∧
    get_section (overwrite_section ([['x', '\n']] ++
        ['[', 'r', 'e', 'c', 'e', 'n', 't', ']', '\n'] ::
        ([['a', '.', 'r', 'p', 'p', '\n']] ++
          [['[', 'T', 'h', 'e', 'm', 'e', ']', '\n'], ['d', 'a', 'r', 'k', '\n']]))
      ['R', 'e', 'c', 'e', 'n', 't']
        (get_section ([] ++ ['[', 'R', 'e', 'c', 'e', 'n', 't', ']', '\n'] ::
          ([['b', '.', 'r', 'p', 'p', '\n'], ['c', '.', 'r', 'p', 'p', '\n']] ++ []))
        ['R', 'e', 'c', 'e', 'n', 't'])) ['R', 'e', 'c', 'e', 'n', 't'] =
      get_section ([] ++ ['[', 'R', 'e', 'c', 'e', 'n', 't', ']', '\n'] ::
        ([['b', '.', 'r', 'p', 'p', '\n'], ['c', '.', 'r', 'p', 'p', '\n']] ++ []))
        ['R', 'e', 'c', 'e', 'n', 't'] :=
  claim_C5_section_merge ['R', 'e', 'c', 'e', 'n', 't']
    [] [['b', '.', 'r', 'p', 'p', '\n'], ['c', '.', 'r', 'p', 'p', '\n']] []
    [['x', '\n']] [['a', '.', 'r', 'p', 'p', '\n']]
    [['[', 'T', 'h', 'e', 'm', 'e', ']', '\n'], ['d', 'a', 'r', 'k', '\n']]
    ['[', 'R', 'e', 'c', 'e', 'n', 't', ']', '\n']
    ['[', 'r', 'e', 'c', 'e', 'n', 't', ']', '\n']
    (by decide) (by decide) (by decide) (Or.inl rfl)
    (by decide) (by decide) (by decide)
    (Or.inr ⟨['[', 'T', 'h', 'e', 'm', 'e', ']', '\n'], [['d', 'a', 'r', 'k', '\n']],
      rfl, by decide, by decide⟩)
    (by decide)

/-- Counterexample to C9 as stated: `c9doc` contains two matching header
lines, yet extraction returns the first occurrence's extent (`[s]`,`a`), not
the last one's (`[s]`,`b`), and overwriting replaces the first occurrence's
extent, leaving the later `[s]` section untouched. -/
theorem claim_C9_counterexample :
    (c9doc.countP (fun l => matchesHeader ['s'] l) = 2) ∧
    get_section c9doc ['s'] = ['[', 's', ']', '\n', 'a', '\n'] ∧
    get_section c9doc ['s'] ≠ ['[', 's', ']', '\n', 'b', '\n'] ∧
    overwrite_section c9doc ['s'] ['X', '\n'] =
      [['X', '\n'], ['[', 't', ']', '\n'], ['[', 's', ']', '\n'], ['b', '\n']] := by
  refine ⟨by decide, by decide, by decide, by decide⟩

/-- C9 amended: within the run of lines from the first matching header to the
first terminating bracket line, a repeated matching header resets the scan,
so extraction and overwrite operate on the extent beginning at the LAST
matching header of that run (and a repeated matching header does not
terminate the section); matching headers occurring after a terminator are
ignored, because the scan breaks there. -/
theorem claim_C9_last_header_in_run (name : Line)
    (pre mid body rest : List Line) (h1 h2 : Line) (content : List Char)
    (hpre : ∀ l ∈ pre, matchesHeader name l = false)
    (hh1 : matchesHeader name h1 = true)
    (hmid : ∀ l ∈ mid, matchesHeader name l = false ∧ startsBracket l = false)
    (hh2 : matchesHeader name h2 = true)
    (hbody : ∀ l ∈ body, matchesHeader name l = false ∧ startsBracket l = false)
    (hrest : SectionEnd name rest) :
    get_section (pre ++ h1 :: (mid ++ h2 :: (body ++ rest))) name =
      (h2 :: body).flatten ∧
    overwrite_section (pre ++ h1 :: (mid ++ h2 :: (body ++ rest))) name content =
      pre ++ h1 :: (mid ++ (splitlinesKeepends content ++ rest)) := by
  constructor
  · unfold get_section
    rw [getSectionGo_skip hpre]
    simp only [getSectionGo, hh1, if_true]
    rw [getSectionGo_body hmid]
    simp only [getSectionGo, hh2, if_true]
    rw [getSectionGo_body hbody]
    rcases hrest with rfl | ⟨t, rs, rfl, hb, hm⟩
    · simp [getSectionGo]
    · rw [getSectionGo_term hb hm]
      simp
  · unfold overwrite_section
    rw [owGo_skip 0 none hpre]
    simp only [owGo, hh1, if_true, Nat.zero_add]
    rw [owGo_body (pre.length + 1) (some pre.length) hmid]
    simp only [owGo, hh2, if_true]
    rw [owGo_body (pre.length + 1 + mid.length + 1)
      (some (pre.length + 1 + mid.length)) hbody]
    have hlenTake : (pre ++ h1 :: mid).length = pre.length + 1 + mid.length := by
      simp; omega
    rcases hrest with rfl | ⟨t, rs, rfl, hb, hm⟩
    · simp only [List.append_nil, owGo]
      rw [show pre ++ h1 :: (mid ++ h2 :: body) =
        (pre ++ h1 :: mid) ++ (h2 :: body) from by simp]
      rw [List.take_left' hlenTake, List.drop_length]
      simp
    · rw [owGo_term (pre.length + 1 + mid.length + 1 + body.length)
        (some (pre.length + 1 + mid.length)) hb hm]
      simp only
      have hlenDrop : (pre ++ h1 :: (mid ++ h2 :: body)).length =
          pre.length + 1 + mid.length + 1 + body.length := by
        simp; omega
      rw [show pre ++ h1 :: (mid ++ h2 :: (body ++ t :: rs)) =
        (pre ++ h1 :: (mid ++ h2 :: body)) ++ (t :: rs) from by simp]
      rw [List.drop_left' hlenDrop]
      rw [show (pre ++ h1 :: (mid ++ h2 :: body)) ++ (t :: rs) =
        (pre ++ h1 :: mid) ++ (h2 :: (body ++ t :: rs)) from by simp]
      rw [List.take_left' hlenTake]
      simp

/-- Witness for the amended C9 on a document `[s] a [s] b [t] x`: the two
matching headers are adjacent in one run, extraction returns the second
occurrence's extent and overwrite replaces from the second header to the
terminator. -/
theorem claim_C9_last_header_in_run_witness :
    get_section ([] ++ ['[', 's', ']', '\n'] :: ([['a', '\n']] ++
        ['[', 's', ']', '\n'] :: ([['b', '\n']] ++ [['[', 't', ']', '\n'], ['x', '\n']])))
      ['s'] = (['[', 's', ']', '\n'] :: [['b', '\n']]).flatten ∧
    overwrite_section ([] ++ ['[', 's', ']', '\n'] :: ([['a', '\n']] ++
        ['[', 's', ']', '\n'] :: ([['b', '\n']] ++ [['[', 't', ']', '\n'], ['x', '\n']])))
      ['s'] ['Y', '\n'] =
      [] ++ ['[', 's', ']', '\n'] :: ([['a', '\n']] ++
        (splitlinesKeepends ['Y', '\n'] ++ [['[', 't', ']', '\n'], ['x', '\n']])) :=
  claim_C9_last_header_in_run ['s'] [] [['a', '\n']] [['b', '\n']]
    [['[', 't', ']', '\n'], ['x', '\n']] ['[', 's', ']', '\n'] ['[', 's', ']', '\n']
    ['Y', '\n'] (by decide) (by decide) (by decide) (by decide) (by decide)
    (Or.inr ⟨['[', 't', ']', '\n'], [['x', '\n']], rfl, by decide, by decide⟩)

/-- Counterexample to C10 as stated: a document whose second line contains a
form-feed character (which `readlines` does not split on, but `splitlines`
does).  It has exactly one matching header, yet
`overwrite_section(S, get_section(S))` changes the in-memory line sequence:
the form-feed line is split in two. -/
theorem claim_C10_counterexample :
    ((([['[', 's', ']', '\n'], ['a', Char.ofNat 12, 'b', '\n']] : List Line).countP
      (fun l => matchesHeader ['s'] l)) = 1) ∧
    overwrite_section [['[', 's', ']', '\n'], ['a', Char.ofNat 12, 'b', '\n']] ['s']
        (get_section [['[', 's', ']', '\n'], ['a', Char.ofNat 12, 'b', '\n']] ['s']) ≠
      [['[', 's', ']', '\n'], ['a', Char.ofNat 12, 'b', '\n']] ∧
    overwrite_section [['[', 's', ']', '\n'], ['a', Char.ofNat 12, 'b', '\n']] ['s']
        (get_section [['[', 's', ']', '\n'], ['a', Char.ofNat 12, 'b', '\n']] ['s']) =
      [['[', 's', ']', '\n'], ['a', Char.ofNat 12], ['b', '\n']] := by
  refine ⟨by decide, by decide, by decide⟩

/-- C10 amended: extract-then-overwrite is a round-trip no-op on the
in-memory lines for a document decomposed around its single matching header,
provided the section's lines are proper `readlines` lines (newline-terminated
with no embedded `splitlines` break characters) — without that proviso the
join-then-split step can re-cut the lines, as the counterexample shows. -/
theorem claim_C10_roundtrip (name : Line) (pre body rest : List Line)
    (hd : Line)
    (hpre : ∀ l ∈ pre, matchesHeader name l = false)
    (hh : matchesHeader name hd = true)
    (hbody : ∀ l ∈ body, matchesHeader name l = false ∧ startsBracket l = false)
    (hrest : SectionEnd name rest)
    (hproper : ∀ l ∈ hd :: body, ProperLine l) :
    overwrite_section (pre ++ hd :: (body ++ rest)) name
        (get_section (pre ++ hd :: (body ++ rest)) name) =
      pre ++ hd :: (body ++ rest) := by
  rw [get_section_structured hpre hh hbody hrest,
    overwrite_section_structured _ hpre hh hbody hrest,
    splitlines_flatten_proper hproper]
  simp

lemma dedup_all_eq {α : Type} [DecidableEq α] {a : α} :
    ∀ {l : List α}, (∀ x ∈ l, x = a) → l ≠ [] → l.dedup = [a]
  | [], _, hne => absurd rfl hne
  | x :: l, h, _ => by
    have hx : x = a := h x (List.mem_cons_self x l)
    subst hx
    cases l with
    | nil => simp
    | cons y l =>
      have hy : y = x := h y (List.mem_cons_of_mem x (List.mem_cons_self y l))
      have hmem : x ∈ y :: l := by rw [hy]; exact List.mem_cons_self x l
      rw [List.dedup_cons_of_mem hmem]
      exact dedup_all_eq (fun z hz => h z (List.mem_cons_of_mem x hz))
        (List.cons_ne_nil y l)

lemma nodup_fst_eq {α β : Type} {l : List (α × β)}
    (h : (l.map Prod.fst).Nodup) {a : α} {b c : β}
    (h1 : (a, b) ∈ l) (h2 : (a, c) ∈ l) : b = c := by
  induction l with
  | nil => cases h1
  | cons x l ih =>
    rw [List.map_cons, List.nodup_cons] at h
    rcases List.mem_cons.mp h1 with he1 | hm1 <;>
      rcases List.mem_cons.mp h2 with he2 | hm2
    · have hbc := he1.trans he2.symm
      injection hbc with h1 h2
    · exfalso
      exact h.1 (List.mem_map.mpr ⟨(a, c), hm2, by rw [← he1]⟩)
    · exfalso
      exact h.1 (List.mem_map.mpr ⟨(a, b), hm1, by rw [← he2]⟩)
    · exact ih h.2 hm1 hm2

lemma applyTrace_append (fs : Fs) (tr1 tr2 : List Act) :
    applyTrace fs (tr1 ++ tr2) = applyTrace (applyTrace fs tr1) tr2 := by
  induction tr1 generalizing fs with
  | nil => rfl
  | cons a tr1 ih => simp only [List.cons_append, applyTrace]; exact ih _

/-- A path no copy in the trace targets keeps its recorded properties. -/
lemma applyTrace_no_copy_to {q : FsPath} :
    ∀ {tr : List Act} {fs : Fs}, (∀ s, Act.copy2 s q ∉ tr) →
      applyTrace fs tr q = fs q
  | [], _, _ => rfl
  | a :: tr, fs, h => by
    have htail : ∀ s, Act.copy2 s q ∉ tr := fun s hs =>
      h s (List.mem_cons_of_mem a hs)
    cases a with
    | copy2 s d =>
      have hdq : d ≠ q := by
        intro hdq
        exact h s (hdq ▸ List.mem_cons_self _ _)
      show applyTrace (applyAction fs (Act.copy2 s d)) tr q = fs q
      rw [applyTrace_no_copy_to htail]
      simp [applyAction, hdq, Ne.symm hdq]
    | makedirs d =>
      show applyTrace fs tr q = fs q
      exact applyTrace_no_copy_to htail
    | log m =>
      show applyTrace fs tr q = fs q
      exact applyTrace_no_copy_to htail

/-- If every copy in the trace reads `src` and never overwrites `src`, then a
path that some copy targets ends up with `src`'s recorded properties. -/
lemma applyTrace_copied {src q : FsPath} :
    ∀ {tr : List Act} {fs : Fs},
      (∀ s d, Act.copy2 s d ∈ tr → s = src ∧ d ≠ src) →
      (∃ s, Act.copy2 s q ∈ tr) → applyTrace fs tr q = fs src
  | [], _, _, hex => absurd hex.choose_spec (List.not_mem_nil _)
  | a :: tr, fs, hall, hex => by
    have htail : ∀ s d, Act.copy2 s d ∈ tr → s = src ∧ d ≠ src := fun s d hs =>
      hall s d (List.mem_cons_of_mem a hs)
    cases a with
    | copy2 s d =>
      obtain ⟨hs, hd⟩ := hall s d (List.mem_cons_self _ _)
      show applyTrace (applyAction fs (Act.copy2 s d)) tr q = fs src
      by_cases hq : ∃ s', Act.copy2 s' q ∈ tr
      · rw [applyTrace_copied htail hq]
        have hds : src ≠ d := fun h => hd h.symm
        simp [applyAction, hds]
      · have hdq : q = d := by
          obtain ⟨s', hmem⟩ := hex
          rcases List.mem_cons.mp hmem with he | hm
          · simp only [Act.copy2.injEq] at he
            exact he.2
          · exact absurd ⟨s', hm⟩ hq
        rw [applyTrace_no_copy_to (fun s' hs' => hq ⟨s', hs'⟩)]
        simp [applyAction, hdq, hs]
    | makedirs d =>
      have hx : ∃ s, Act.copy2 s q ∈ tr := by
        obtain ⟨s', hmem⟩ := hex
        rcases List.mem_cons.mp hmem with he | hm
        · cases he
        · exact ⟨s', hm⟩
      show applyTrace fs tr q = fs src
      exact applyTrace_copied htail hx
    | log m =>
      have hx : ∃ s, Act.copy2 s q ∈ tr := by
        obtain ⟨s', hmem⟩ := hex
        rcases List.mem_cons.mp hmem with he | hm
        · cases he
        · exact ⟨s', hm⟩
      show applyTrace fs tr q = fs src
      exact applyTrace_copied htail hx

/-- Counterexample to C6 as stated: two copies of `reaper.ini` share size `5`
and mtime `9` (only `ctime` differs), yet the pass's section-merge step
(`auto_update_reaper_ini_sections`) — which performs no `(size, mtime)`
comparison at all — rewrites `B`'s `reaper.ini` on disk with the merged
content, a filesystem write for a metadata-identical logical file. -/
theorem claim_C6_counterexample :
    (Props.mk 5 9 1).size = (Props.mk 5 9 2).size ∧
    (Props.mk 5 9 1).mtime = (Props.mk 5 9 2).mtime ∧
    IniAct.rewrite ["B", "reaper.ini"]
        [['[', 'r', 'e', 'c', 'e', 'n', 't', ']', '\n'], ['a', '\n']] ∈
      (auto_update_reaper_ini_sections false [Loc.mk "A" ["A"], Loc.mk "B" ["B"]]
        [['R', 'e', 'c', 'e', 'n', 't']] (fun _ => true) (fun _ => true)
        (fun _ => [])
        (fun p => if p = ["A", "reaper.ini"] then some (Props.mk 5 9 1)
          else some (Props.mk 5 9 2))
        (fun p => if p = ["A", "reaper.ini"]
          then [['[', 'r', 'e', 'c', 'e', 'n', 't', ']', '\n'], ['a', '\n']]
          else [['[', 'r', 'e', 'c', 'e', 'n', 't', ']', '\n'], ['b', '\n']])).getD
        [] := by
  refine ⟨rfl, rfl, by decide⟩

/-- C6 amended: for a logical file OTHER than `reaper.ini` with at least two
copies all sharing the same `(size, mtime)` pair — creation times
unconstrained — the pass is quiescent: the interactive resolution returns
`False` with an empty trace (zero filesystem writes, no "new file" or
"multiple versions" log entries) and the automatic-replace body emits an
empty trace, since both key on `(size, mtime)` only.  The `reaper.ini`
section-merge pass is the exception: it applies no metadata comparison
(third conjunct — metadata-identical copies with distinct paths still reach
`update_reaper_ini_sections`), and every live section merge with a
non-empty source section rewrites the old file on disk (fourth
conjunct). -/
theorem claim_C6_quiescence (testMode : Bool) (fname folder : String)
    (paths : List Loc) (ex : FsPath → Bool) (inputs : Nat → List Char)
    (v1 v2 : FsPath × Props) (rest : List (FsPath × Props))
    (hsame : ∀ v ∈ v1 :: v2 :: rest,
      v.2.size = v1.2.size ∧ v.2.mtime = v1.2.mtime) :
    sync_file_versions testMode fname (v1 :: v2 :: rest) folder paths ex inputs =
      some (false, []) ∧
    autoEntry paths fname (v1 :: v2 :: rest) ex = some [] ∧
    (∀ (sections' : List Line) (readDoc : FsPath → List Line)
      (w1 w2 : FsPath × Props), w1.2.size = w2.2.size →
      w1.2.mtime = w2.2.mtime → w1.1 ≠ w2.1 →
      iniInvGo false sections' readDoc [("reaper.ini", [w1, w2])] =
        (update_reaper_ini_sections false w2.1 (readDoc w2.1) (readDoc w1.1)
          sections').2) ∧
    (∀ (oldPath : FsPath) (oldDoc newestDoc : List Line) (s : Line),
      (get_section newestDoc s).isEmpty = false →
      ∃ w, IniAct.rewrite oldPath w ∈
        (update_reaper_ini_sections false oldPath oldDoc newestDoc [s]).2) := by
  refine ⟨?_, ?_, ?_, ?_⟩
  · have hm : (v1.2.mtime :: v2.2.mtime :: rest.map (fun v => v.2.mtime)).dedup =
        [v1.2.mtime] := by
      have hshape : v1.2.mtime :: v2.2.mtime :: rest.map (fun v => v.2.mtime) =
          (v1 :: v2 :: rest).map (fun v => v.2.mtime) := by simp
      rw [hshape]
      apply dedup_all_eq
      · intro x hx
        obtain ⟨v, hv, rfl⟩ := List.mem_map.mp hx
        exact (hsame v hv).2
      · simp
    have hsz : (v1.2.size :: v2.2.size :: rest.map (fun v => v.2.size)).dedup =
        [v1.2.size] := by
      have hshape : v1.2.size :: v2.2.size :: rest.map (fun v => v.2.size) =
          (v1 :: v2 :: rest).map (fun v => v.2.size) := by simp
      rw [hshape]
      apply dedup_all_eq
      · intro x hx
        obtain ⟨v, hv, rfl⟩ := List.mem_map.mp hx
        exact (hsame v hv).1
      · simp
    simp [sync_file_versions, hm, hsz]
  · have hne : List.insertionSort (fun a b => b.2.mtime ≤ a.2.mtime)
        (v1 :: v2 :: rest) ≠ [] := by
      intro h
      have hp := List.perm_insertionSort (fun a b => b.2.mtime ≤ a.2.mtime)
        (v1 :: v2 :: rest)
      rw [h] at hp
      have := hp.length_eq
      simp at this
    obtain ⟨newest, olds, hs⟩ := List.exists_cons_of_ne_nil hne
    have hmemAll : ∀ x ∈ newest :: olds,
        x.2.size = v1.2.size ∧ x.2.mtime = v1.2.mtime := by
      intro x hx
      exact hsame x ((List.mem_insertionSort _).mp (hs ▸ hx))
    simp only [autoEntry, hs]
    refine congrArg some ?_
    rw [List.flatten_eq_nil_iff]
    intro l hl
    obtain ⟨old, hold, rfl⟩ := List.mem_map.mp hl
    have h1 := hmemAll newest (List.mem_cons_self _ _)
    have h2 := hmemAll old (List.mem_cons_of_mem _ hold)
    have hszeq : newest.2.size = old.2.size := by rw [h1.1, h2.1]
    have hmteq : newest.2.mtime = old.2.mtime := by rw [h1.2, h2.2]
    simp [hszeq, hmteq]
  · intro sections' readDoc w1 w2 hwsz hwmt hwne
    have hsort : List.insertionSort (fun a b => b.2.mtime ≤ a.2.mtime) [w1, w2] =
        [w1, w2] := by
      simp [List.insertionSort, List.orderedInsert, hwmt]
    simp only [iniInvGo, hsort]
    simp [hwne]
  · intro oldPath oldDoc newestDoc s hne'
    refine ⟨overwrite_section oldDoc s (get_section newestDoc s), ?_⟩
    simp [update_reaper_ini_sections, hne']

/-- Witness for the amended C6 on the spec's scenario: two copies of
`theme.ini` share size `4` and mtime `9` but differ in creation time (`1`
versus `2`); the interactive pass reports no change with an empty trace and
the automatic pass emits nothing, while the `reaper.ini` section-merge
exception clauses hold as stated. -/
theorem claim_C6_quiescence_witness :
    sync_file_versions false "theme.ini"
      [(["A", "theme.ini"], Props.mk 4 9 1), (["B", "theme.ini"], Props.mk 4 9 2)]
      "Configurations" [Loc.mk "A" ["A"], Loc.mk "B" ["B"]]
      (fun _ => true) (fun _ => []) = some (false, []) ∧
    autoEntry [Loc.mk "A" ["A"], Loc.mk "B" ["B"]] "theme.ini"
      [(["A", "theme.ini"], Props.mk 4 9 1), (["B", "theme.ini"], Props.mk 4 9 2)]
      (fun _ => true) = some [] ∧
    (∀ (sections' : List Line) (readDoc : FsPath → List Line)
      (w1 w2 : FsPath × Props), w1.2.size = w2.2.size →
      w1.2.mtime = w2.2.mtime → w1.1 ≠ w2.1 →
      iniInvGo false sections' readDoc [("reaper.ini", [w1, w2])] =
        (update_reaper_ini_sections false w2.1 (readDoc w2.1) (readDoc w1.1)
          sections').2) ∧
    (∀ (oldPath : FsPath) (oldDoc newestDoc : List Line) (s : Line),
      (get_section newestDoc s).isEmpty = false →
      ∃ w, IniAct.rewrite oldPath w ∈
        (update_reaper_ini_sections false oldPath oldDoc newestDoc [s]).2) :=
  claim_C6_quiescence false "theme.ini" "Configurations"
    [Loc.mk "A" ["A"], Loc.mk "B" ["B"]] (fun _ => true) (fun _ => [])
    (["A", "theme.ini"], Props.mk 4 9 1) (["B", "theme.ini"], Props.mk 4 9 2) []
    (by decide)

/-- C8: in the automatic-replace body, every executed copy reads the newest
copy (the head of the stable descending sort) and targets an older copy whose
`(size, mtime)` pair differs from the newest's; a copy whose pair equals the
newest's is never overwritten (the copy paths are pairwise distinct, as they
live in distinct locations). -/
theorem claim_C8_autoreplace_only_differing (paths : List Loc) (fname : String)
    (ex : FsPath → Bool) (v1 v2 : FsPath × Props) (rest : List (FsPath × Props))
    (hnd : ((v1 :: v2 :: rest).map Prod.fst).Nodup) :
    ∃ newest olds tr,
      List.insertionSort (fun a b => b.2.mtime ≤ a.2.mtime) (v1 :: v2 :: rest) =
        newest :: olds ∧
      autoEntry paths fname (v1 :: v2 :: rest) ex = some tr ∧
      (∀ s d, Act.copy2 s d ∈ tr → s = newest.1 ∧
        ∃ pd, (d, pd) ∈ olds ∧
          (newest.2.size ≠ pd.size ∨ newest.2.mtime ≠ pd.mtime)) ∧
      (∀ d pd, (d, pd) ∈ v1 :: v2 :: rest →
        pd.size = newest.2.size → pd.mtime = newest.2.mtime →
        ∀ s, Act.copy2 s d ∉ tr) := by
  have hne : List.insertionSort (fun a b => b.2.mtime ≤ a.2.mtime)
      (v1 :: v2 :: rest) ≠ [] := by
    intro h
    have hp := List.perm_insertionSort (fun a b => b.2.mtime ≤ a.2.mtime)
      (v1 :: v2 :: rest)
    rw [h] at hp
    have := hp.length_eq
    simp at this
  obtain ⟨newest, olds, hs⟩ := List.exists_cons_of_ne_nil hne
  have heq : autoEntry paths fname (v1 :: v2 :: rest) ex = some ((olds.map (fun old =>
      if newest.1 ≠ old.1 then
        if newest.2.size ≠ old.2.size ∨ newest.2.mtime ≠ old.2.mtime then
          [Act.copy2 newest.1 old.1, Act.log (.autoUpdated old.1 newest.1)]
        else []
      else [])).flatten) := by
    simp only [autoEntry, hs]
  have hcopy : ∀ s d, Act.copy2 s d ∈ ((olds.map (fun old =>
      if newest.1 ≠ old.1 then
        if newest.2.size ≠ old.2.size ∨ newest.2.mtime ≠ old.2.mtime then
          [Act.copy2 newest.1 old.1, Act.log (.autoUpdated old.1 newest.1)]
        else []
      else [])).flatten) → s = newest.1 ∧
      ∃ pd, (d, pd) ∈ olds ∧
        (newest.2.size ≠ pd.size ∨ newest.2.mtime ≠ pd.mtime) := by
    intro s d hmem
    obtain ⟨l, hl, hm⟩ := List.mem_flatten.mp hmem
    obtain ⟨old, hold, rfl⟩ := List.mem_map.mp hl
    split at hm
    · split at hm
      · rcases List.mem_cons.mp hm with he | hm'
        · simp only [Act.copy2.injEq] at he
          refine ⟨he.1, old.2, ?_, ?_⟩
          · rw [he.2]
            exact Prod.mk.eta ▸ hold
          · assumption
        · simp at hm'
      · simp at hm
    · simp at hm
  refine ⟨newest, olds, _, hs, heq, hcopy, ?_⟩
  intro d pd hmem hsz hmt s hcontra
  obtain ⟨hsrc, pd', hpd', hdiff⟩ := hcopy s d hcontra
  have hin : (d, pd') ∈ v1 :: v2 :: rest :=
    (List.mem_insertionSort _).mp (hs ▸ List.mem_cons_of_mem newest hpd')
  have hpp : pd = pd' := nodup_fst_eq hnd hmem hin
  rcases hdiff with hne' | hne'
  · exact hne' (by rw [← hpp, hsz])
  · exact hne' (by rw [← hpp, hmt])

/-- Witness for C8: two copies sharing size `1` with mtimes `7 > 5`; the
newest is the `B` copy and every copy action targets the differing `A`
copy. -/
theorem claim_C8_autoreplace_only_differing_witness :
    ∃ newest olds tr,
      List.insertionSort (fun a b => b.2.mtime ≤ a.2.mtime)
        [((["A", "r.ini"] : FsPath), Props.mk 1 5 0), (["B", "r.ini"], Props.mk 1 7 0)] =
        newest :: olds ∧
      autoEntry [] "r.ini"
        [(["A", "r.ini"], Props.mk 1 5 0), (["B", "r.ini"], Props.mk 1 7 0)]
        (fun _ => true) = some tr ∧
      (∀ s d, Act.copy2 s d ∈ tr → s = newest.1 ∧
        ∃ pd, (d, pd) ∈ olds ∧
          (newest.2.size ≠ pd.size ∨ newest.2.mtime ≠ pd.mtime)) ∧
      (∀ d pd, (d, pd) ∈ [((["A", "r.ini"] : FsPath), Props.mk 1 5 0),
          (["B", "r.ini"], Props.mk 1 7 0)] →
        pd.size = newest.2.size → pd.mtime = newest.2.mtime →
        ∀ s, Act.copy2 s d ∉ tr) :=
  claim_C8_autoreplace_only_differing [] "r.ini" (fun _ => true)
    (["A", "r.ini"], Props.mk 1 5 0) (["B", "r.ini"], Props.mk 1 7 0) []
    (by decide)

lemma statFiles_fails (stat : FsPath → Option Props) (folderPath root : FsPath) :
    ∀ {files : List String} {f : String}, f ∈ files →
      stat (root ++ [f]) = none →
      ∀ acc, statFiles stat folderPath root acc files = none
  | [], _, hf, _, _ => absurd hf (List.not_mem_nil _)
  | g :: files, f, hf, hstat, acc => by
    rcases List.mem_cons.mp hf with rfl | hmem
    · simp [statFiles, hstat]
    · cases hg : stat (root ++ [g]) with
      | none => simp [statFiles, hg]
      | some p =>
        simp only [statFiles, hg]
        exact statFiles_fails stat folderPath root hmem hstat _

lemma walkFold_fails (stat : FsPath → Option Props) (folderPath : FsPath) :
    ∀ {entries : List (FsPath × List String)} {root : FsPath}
      {files : List String} {f : String}, (root, files) ∈ entries →
      f ∈ files → stat (root ++ [f]) = none →
      ∀ acc, walkFold stat folderPath acc entries = none
  | [], _, _, _, hent, _, _, _ => absurd hent (List.not_mem_nil _)
  | (r, fls) :: entries, root, files, f, hent, hf, hstat, acc => by
    rcases List.mem_cons.mp hent with he | hmem
    · injection he with h1 h2
      subst h1
      subst h2
      simp [walkFold, statFiles_fails stat folderPath root hf hstat acc]
    · cases hsf : statFiles stat folderPath r acc fls with
      | none => simp [walkFold, hsf]
      | some acc' =>
        simp only [walkFold, hsf]
        exact walkFold_fails stat folderPath hmem hf hstat acc'

lemma collectGo_fails (folder : String) (root_files : Option (List String))
    (isdir isfile : FsPath → Bool) (walk : FsPath → List (FsPath × List String))
    (stat : FsPath → Option Props) (hfolder : folder ≠ "") :
    ∀ {paths : List Loc} {p : Loc} {root : FsPath} {files : List String}
      {f : String}, p ∈ paths →
      isdir (joinDir p.path folder) = true →
      (root, files) ∈ walk (joinDir p.path folder) →
      f ∈ files → stat (root ++ [f]) = none →
      ∀ acc, collectGo folder root_files isdir isfile walk stat paths acc = none
  | [], _, _, _, _, hp, _, _, _, _, _ => absurd hp (List.not_mem_nil _)
  | q :: paths, p, root, files, f, hp, hdir, hwalk, hf, hstat, acc => by
    rcases List.mem_cons.mp hp with rfl | hmem
    · simp only [collectGo, hdir, Bool.not_true, Bool.false_eq_true, if_false]
      rw [if_neg (by simp [hfolder])]
      rw [walkFold_fails stat _ hwalk hf hstat acc]
    · by_cases hq : isdir (joinDir q.path folder) = true
      · simp only [collectGo, hq, Bool.not_true, Bool.false_eq_true, if_false]
        rw [if_neg (by simp [hfolder])]
        cases hwf : walkFold stat (joinDir q.path folder) acc
            (walk (joinDir q.path folder)) with
        | none => rfl
        | some acc' =>
          exact collectGo_fails folder root_files isdir isfile walk stat hfolder
            hmem hdir hwalk hf hstat acc'
      · rw [Bool.not_eq_true] at hq
        simp only [collectGo, hq, Bool.not_false, if_true]
        exact collectGo_fails folder root_files isdir isfile walk stat hfolder
          hmem hdir hwalk hf hstat acc

/-- Counterexample to C7 as stated: a location whose folder enumeration lists
`ghost.fxp` but whose stat call fails.  The collection result is `none` — in
the source the `os.stat` exception propagates out of
`collect_files_in_folder`, because `get_file_properties` has no handler —
instead of the file being skipped and the collection continuing with an
(empty) inventory. -/
theorem claim_C7_counterexample :
    collect_files_in_folder "FXChains" [Loc.mk "A" ["A"]] none
      (fun _ => true) (fun _ => true)
      (fun fp => [(fp, ["ghost.fxp"])]) (fun _ => none) = none := by decide

/-- C7 amended: a stat failure on any file enumerated by the recursive walk
of any configured location is NOT tolerated: the exception escapes and the
whole collection aborts (`none`), for every inventory pass over a non-root
folder. -/
theorem claim_C7_stat_failure_aborts (folder : String)
    (root_files : Option (List String)) (isdir isfile : FsPath → Bool)
    (walk : FsPath → List (FsPath × List String)) (stat : FsPath → Option Props)
    (paths : List Loc) (p : Loc) (root : FsPath) (files : List String)
    (f : String) (hfolder : folder ≠ "") (hp : p ∈ paths)
    (hdir : isdir (joinDir p.path folder) = true)
    (hwalk : (root, files) ∈ walk (joinDir p.path folder))
    (hf : f ∈ files) (hstat : stat (root ++ [f]) = none) :
    collect_files_in_folder folder paths root_files isdir isfile walk stat =
      none :=
  collectGo_fails folder root_files isdir isfile walk stat hfolder hp hdir
    hwalk hf hstat []

/-- Witness for the amended C7: two enumerated files, the second of which
fails to stat; the collection aborts. -/
theorem claim_C7_stat_failure_aborts_witness :
    collect_files_in_folder "FXChains" [Loc.mk "A" ["A"]] none
      (fun _ => true) (fun _ => true)
      (fun fp => [(fp, ["a.fxp", "b.fxp"])])
      (fun q => if q = ["A", "FXChains", "b.fxp"] then none
        else some (Props.mk 1 1 1)) = none :=
  claim_C7_stat_failure_aborts "FXChains" none (fun _ => true) (fun _ => true)
    (fun fp => [(fp, ["a.fxp", "b.fxp"])])
    (fun q => if q = ["A", "FXChains", "b.fxp"] then none
      else some (Props.mk 1 1 1))
    [Loc.mk "A" ["A"]] (Loc.mk "A" ["A"]) ["A", "FXChains"] ["a.fxp", "b.fxp"]
    "b.fxp" (by decide) (by decide) (by decide) (by decide) (by decide)
    (by decide)

lemma newFileLoop_copy_mem (tm : Bool) (fname folder : String) (src : FsPath)
    (props : Props) (cfg : Option String × Option FsPath) (allPaths : List Loc)
    (ex : FsPath → Bool) (inputs : Nat → List Char) :
    ∀ {locs : List Loc} {k : Nat} {s d : FsPath},
      Act.copy2 s d ∈
        newFileLoop tm fname folder src props cfg allPaths ex inputs locs k →
      s = src ∧ ∃ p ∈ locs, d = joinDir p.path folder ++ [fname] ∧ ex d = false
  | [], _, _, _, hmem => absurd hmem (List.not_mem_nil _)
  | p :: locs, k, s, d, hmem => by
    by_cases hex : ex (joinDir p.path folder ++ [fname]) = true
    · simp only [newFileLoop, hex, if_true] at hmem
      obtain ⟨hs, q, hq, hd⟩ :=
        newFileLoop_copy_mem tm fname folder src props cfg allPaths ex inputs hmem
      exact ⟨hs, q, List.mem_cons_of_mem p hq, hd⟩
    · rw [Bool.not_eq_true] at hex
      simp only [newFileLoop, hex, Bool.false_eq_true, if_false] at hmem
      rcases List.mem_append.mp hmem with h01 | hrec
      · rcases List.mem_append.mp h01 with h0 | hact
        · simp at h0
        · by_cases hy : pyLowerL (inputs k) = ['y']
          · rw [if_pos hy] at hact
            rcases List.mem_cons.mp hact with he | hlw
            · cases he
            · cases tm with
              | true => simp [log_or_write] at hlw
              | false =>
                simp only [log_or_write, Bool.false_eq_true, if_false] at hlw
                rcases List.mem_cons.mp hlw with he2 | htl
                · simp only [Act.copy2.injEq] at he2
                  refine ⟨he2.1, p, List.mem_cons_self p locs, he2.2, ?_⟩
                  rw [he2.2]
                  exact hex
                · simp at htl
          · rw [if_neg hy] at hact
            simp at hact
      · obtain ⟨hs, q, hq, hd⟩ :=
          newFileLoop_copy_mem tm fname folder src props cfg allPaths ex inputs hrec
        exact ⟨hs, q, List.mem_cons_of_mem p hq, hd⟩

lemma newFileLoop_covers (fname folder : String) (src : FsPath) (props : Props)
    (cfg : Option String × Option FsPath) (allPaths : List Loc)
    (ex : FsPath → Bool) (inputs : Nat → List Char)
    (hy : ∀ n, pyLowerL (inputs n) = ['y']) :
    ∀ {locs : List Loc} {p : Loc} (k : Nat), p ∈ locs →
      ex (joinDir p.path folder ++ [fname]) = false →
      Act.copy2 src (joinDir p.path folder ++ [fname]) ∈
        newFileLoop false fname folder src props cfg allPaths ex inputs locs k
  | [], _, _, hp, _ => absurd hp (List.not_mem_nil _)
  | q :: locs, p, k, hp, hex => by
    rcases List.mem_cons.mp hp with rfl | hmem
    · simp [newFileLoop, hex, hy k, log_or_write]
    · by_cases hq : ex (joinDir q.path folder ++ [fname]) = true
      · simp only [newFileLoop, hq, if_true]
        exact newFileLoop_covers fname folder src props cfg allPaths ex inputs hy
          k hmem hex
      · rw [Bool.not_eq_true] at hq
        simp only [newFileLoop, hq, Bool.false_eq_true, if_false]
        refine List.mem_append.mpr (Or.inr ?_)
        exact newFileLoop_covers fname folder src props cfg allPaths ex inputs hy
          (k + 1) hmem hex

/-- C3 amended: for a logical file present only at `src` (every configured
target path that exists is `src` itself), a live (non-test) pass propagates
the file to every location, with `shutil.copy2` preserving size and
modification time — PROVIDED the operator answers `y` to every copy prompt.
The interactive subfolder pass prompts per target; the root-file automatic
pass (second conjunct) copies unconditionally. -/
theorem claim_C3_propagation (fname folder : String) (paths : List Loc)
    (src : FsPath) (props : Props) (ex : FsPath → Bool)
    (inputs : Nat → List Char) (fs : Fs)
    (hy : ∀ n, pyLowerL (inputs n) = ['y'])
    (hsrcEx : ex src = true)
    (hfs : fs src = some props)
    (honly : ∀ p ∈ paths, ex (joinDir p.path folder ++ [fname]) = true →
      joinDir p.path folder ++ [fname] = src) :
    (∃ tr, sync_file_versions false fname [(src, props)] folder paths ex inputs =
        some (true, tr) ∧
      ∀ p ∈ paths, applyTrace fs tr (joinDir p.path folder ++ [fname]) =
        some props) ∧
    ((∀ p ∈ paths, ex (p.path ++ [fname]) = true → p.path ++ [fname] = src) →
      ∃ tr, autoEntry paths fname [(src, props)] ex = some tr ∧
        ∀ p ∈ paths, applyTrace fs tr (p.path ++ [fname]) = some props) := by
  constructor
  · refine ⟨_, rfl, ?_⟩
    intro p hp
    have hall : ∀ s d, Act.copy2 s d ∈
        newFileLoop false fname folder src props
          (find_config_for_path src folder paths) paths ex inputs paths 0 →
        s = src ∧ d ≠ src := by
      intro s d hm
      obtain ⟨hs, q, hq, hd, hexd⟩ :=
        newFileLoop_copy_mem false fname folder src props _ paths ex inputs hm
      refine ⟨hs, ?_⟩
      intro hds
      rw [hds, hsrcEx] at hexd
      cases hexd
    by_cases hexp : ex (joinDir p.path folder ++ [fname]) = true
    · rw [honly p hp hexp]
      rw [applyTrace_no_copy_to (fun s hm => ?_)]
      · exact hfs
      · exact absurd rfl (hall s src hm).2
    · rw [Bool.not_eq_true] at hexp
      have hcov := newFileLoop_covers fname folder src props
        (find_config_for_path src folder paths) paths ex inputs hy 0 hp hexp
      rw [applyTrace_copied hall ⟨src, hcov⟩, hfs]
  · intro honly'
    refine ⟨_, rfl, ?_⟩
    intro p hp
    have hall : ∀ s d, Act.copy2 s d ∈ ((paths.map (fun q =>
        if ex (q.path ++ [fname]) then []
        else [Act.makedirs (q.path ++ [fname]).dropLast,
          Act.copy2 src (q.path ++ [fname]),
          Act.log (.autoCopied src (q.path ++ [fname]))])).flatten) →
        s = src ∧ d ≠ src := by
      intro s d hm
      obtain ⟨l, hl, hml⟩ := List.mem_flatten.mp hm
      obtain ⟨q, hq, rfl⟩ := List.mem_map.mp hl
      by_cases hexq : ex (q.path ++ [fname]) = true
      · rw [if_pos hexq] at hml
        cases hml
      · rw [Bool.not_eq_true] at hexq
        rw [if_neg (by simp [hexq])] at hml
        rcases List.mem_cons.mp hml with he | hml2
        · cases he
        rcases List.mem_cons.mp hml2 with he | hml3
        · simp only [Act.copy2.injEq] at he
          refine ⟨he.1, ?_⟩
          intro hds
          rw [← he.2, hds, hsrcEx] at hexq
          cases hexq
        · simp at hml3
    by_cases hexp : ex (p.path ++ [fname]) = true
    · rw [honly' p hp hexp]
      rw [applyTrace_no_copy_to (fun s hm => ?_)]
      · exact hfs
      · exact absurd rfl (hall s src hm).2
    · rw [Bool.not_eq_true] at hexp
      have hcov : Act.copy2 src (p.path ++ [fname]) ∈ ((paths.map (fun q =>
          if ex (q.path ++ [fname]) then []
          else [Act.makedirs (q.path ++ [fname]).dropLast,
            Act.copy2 src (q.path ++ [fname]),
            Act.log (.autoCopied src (q.path ++ [fname]))])).flatten) := by
        refine List.mem_flatten.mpr ⟨_, List.mem_map.mpr ⟨p, hp, rfl⟩, ?_⟩
        rw [if_neg (by simp [hexp])]
        simp
      rw [applyTrace_copied hall ⟨src, hcov⟩, hfs]

/-- Counterexample to C3 as stated: `lead.fxp` exists only in location `A`;
the operator answers `n` to the copy prompt, and after the pass location `B`
still has no copy at the corresponding path (the replayed filesystem returns
`none` there), while the pass even reports `changed = True`. -/
theorem claim_C3_counterexample :
    (sync_file_versions false "lead.fxp"
      [(["A", "FXChains", "lead.fxp"], Props.mk 3 1 0)] "FXChains"
      [Loc.mk "A" ["A"], Loc.mk "B" ["B"]]
      (fun p => p == ["A", "FXChains", "lead.fxp"]) (fun _ => ['n'])).map
      (fun r => (r.1, applyTrace
        (fun p => if p = ["A", "FXChains", "lead.fxp"]
          then some (Props.mk 3 1 0) else none)
        r.2 ["B", "FXChains", "lead.fxp"])) = some (true, none) := by decide

/-- Witness for the amended C3: `lead.fxp` only in `A`, operator answers `y`,
live mode; after the pass both locations hold a copy with size `3` and
mtime `7`. -/
theorem claim_C3_propagation_witness :
    (∃ tr, sync_file_versions false "lead.fxp"
        [(["A", "Presets", "lead.fxp"], Props.mk 3 7 0)] "Presets"
        [Loc.mk "A" ["A"], Loc.mk "B" ["B"]]
        (fun p => p == ["A", "Presets", "lead.fxp"]) (fun _ => ['y']) =
        some (true, tr) ∧
      ∀ p ∈ [Loc.mk "A" ["A"], Loc.mk "B" ["B"]],
        applyTrace (fun q => if q = ["A", "Presets", "lead.fxp"]
          then some (Props.mk 3 7 0) else none) tr
          (joinDir p.path "Presets" ++ ["lead.fxp"]) = some (Props.mk 3 7 0)) ∧
    ((∀ p ∈ [Loc.mk "A" ["A"], Loc.mk "B" ["B"]],
        (fun q => q == ["A", "Presets", "lead.fxp"]) (p.path ++ ["lead.fxp"]) = true →
        p.path ++ ["lead.fxp"] = ["A", "Presets", "lead.fxp"]) →
      ∃ tr, autoEntry [Loc.mk "A" ["A"], Loc.mk "B" ["B"]] "lead.fxp"
          [(["A", "Presets", "lead.fxp"], Props.mk 3 7 0)]
          (fun p => p == ["A", "Presets", "lead.fxp"]) = some tr ∧
        ∀ p ∈ [Loc.mk "A" ["A"], Loc.mk "B" ["B"]],
          applyTrace (fun q => if q = ["A", "Presets", "lead.fxp"]
            then some (Props.mk 3 7 0) else none) tr
            (p.path ++ ["lead.fxp"]) = some (Props.mk 3 7 0)) :=
  claim_C3_propagation "lead.fxp" "Presets" [Loc.mk "A" ["A"], Loc.mk "B" ["B"]]
    ["A", "Presets", "lead.fxp"] (Props.mk 3 7 0)
    (fun p => p == ["A", "Presets", "lead.fxp"]) (fun _ => ['y'])
    (fun q => if q = ["A", "Presets", "lead.fxp"]
      then some (Props.mk 3 7 0) else none)
    (fun _ => rfl) (by decide) (by decide) (by decide)

/-- Counterexample to C4 as stated: a single-copy file whose copy prompt the
operator declines with `n`.  No copy action is performed (zero `copy2`
actions in the trace), yet `sync_file_versions` returns `True`, so this file
alone sets the pass's `changed` flag. -/
theorem claim_C4_counterexample :
    (sync_file_versions false "patch.fxp"
      [(["A", "FXChains", "patch.fxp"], Props.mk 2 1 0)] "FXChains"
      [Loc.mk "A" ["A"], Loc.mk "B" ["B"]]
      (fun p => p == ["A", "FXChains", "patch.fxp"]) (fun _ => ['n'])).map
      (fun r => (r.1, r.2.countP (fun a => match a with
        | Act.copy2 _ _ => true | _ => false))) = some (true, 0) := by decide

/-- C4 amended: `sync_file_versions` returns `True` for EVERY single-copy
file, regardless of whether any copy was performed (the operator's answer and
the set of missing targets are immaterial); for files with two or more
copies, in live mode, it returns `True` exactly when at least one
`shutil.copy2` was executed for that file. -/
theorem claim_C4_changed_iff :
    (∀ (testMode : Bool) (fname folder : String) (paths : List Loc)
      (ex : FsPath → Bool) (inputs : Nat → List Char) (v : FsPath × Props),
      ∃ tr, sync_file_versions testMode fname [v] folder paths ex inputs =
        some (true, tr)) ∧
    (∀ (fname folder : String) (paths : List Loc) (ex : FsPath → Bool)
      (inputs : Nat → List Char) (v1 v2 : FsPath × Props)
      (rest : List (FsPath × Props)) (b : Bool) (tr : List Act),
      sync_file_versions false fname (v1 :: v2 :: rest) folder paths ex inputs =
        some (b, tr) →
      (b = true ↔ ∃ s d, Act.copy2 s d ∈ tr)) := by
  constructor
  · intro tm fname folder paths ex inputs v
    obtain ⟨vp, vpr⟩ := v
    exact ⟨_, rfl⟩
  · intro fname folder paths ex inputs v1 v2 rest b tr hrun
    simp only [sync_file_versions] at hrun
    by_cases hq : (((v1 :: v2 :: rest).map (fun v => v.2.mtime)).dedup.length = 1 ∧
        ((v1 :: v2 :: rest).map (fun v => v.2.size)).dedup.length = 1)
    · rw [if_pos hq] at hrun
      simp only [Option.some.injEq, Prod.mk.injEq] at hrun
      obtain ⟨hb, ht⟩ := hrun
      subst hb
      subst ht
      simp
    · rw [if_neg hq] at hrun
      cases hpi : pyInt (inputs 0) with
      | none =>
        rw [hpi] at hrun
        simp only [Option.some.injEq, Prod.mk.injEq] at hrun
        obtain ⟨hb, ht⟩ := hrun
        subst hb
        subst ht
        constructor
        · intro h
          cases h
        · rintro ⟨s, d, hm⟩
          simp [List.mem_append, List.mem_map] at hm
      | some n =>
        rw [hpi] at hrun
        simp only [Prod.mk.eta] at hrun
        cases hpg : pyGet
            (List.insertionSort (fun a b => b.2.mtime ≤ a.2.mtime)
              (v1 :: v2 :: rest)) (n - 1) with
        | none =>
          rw [hpg] at hrun
          simp only [Option.some.injEq, Prod.mk.injEq] at hrun
          obtain ⟨hb, ht⟩ := hrun
          subst hb
          subst ht
          constructor
          · intro h
            cases h
          · rintro ⟨s, d, hm⟩
            simp [List.mem_append, List.mem_map] at hm
        | some keep =>
          rw [hpg] at hrun
          simp only [Option.some.injEq, Prod.mk.injEq] at hrun
          obtain ⟨hb, ht⟩ := hrun
          subst hb
          subst ht
          simp only [true_iff]
          have hne1 : List.insertionSort (fun a b => b.2.mtime ≤ a.2.mtime)
              (v1 :: v2 :: rest) ≠ [] := by
            intro h
            have hp := List.perm_insertionSort (fun a b => b.2.mtime ≤ a.2.mtime)
              (v1 :: v2 :: rest)
            rw [h] at hp
            have := hp.length_eq
            simp at this
          obtain ⟨s0, t1, hs0⟩ := List.exists_cons_of_ne_nil hne1
          have hne2 : t1 ≠ [] := by
            intro h
            have hp := List.perm_insertionSort (fun a b => b.2.mtime ≤ a.2.mtime)
              (v1 :: v2 :: rest)
            rw [hs0, h] at hp
            have := hp.length_eq
            simp at this
          obtain ⟨s1, t2, hs1⟩ := List.exists_cons_of_ne_nil hne2
          subst hs1
          rw [hs0]
          simp only [List.enum_cons, List.enumFrom_cons, List.map_cons,
            List.flatten_cons]
          by_cases h0 : ((0 : Nat) : Int) = n - 1
          · have h1 : ((1 : Nat) : Int) ≠ n - 1 := by
              push_cast at h0 ⊢
              omega
            refine ⟨keep.1, s1.1, ?_⟩
            simp only [log_or_write, Bool.false_eq_true, if_false, List.mem_append,
              List.mem_cons, List.mem_flatten, List.mem_map]
            simp [log_or_write]
            exact Or.inr (Or.inl (by exact_mod_cast h1))
          · refine ⟨keep.1, s0.1, ?_⟩
            simp [log_or_write]
            exact Or.inl (by exact_mod_cast h0)

/-- Witness for the amended C4: a single-copy file with no configured paths
still yields `True`; a two-copy file resolved with the valid choice `1`
yields a result whose flag matches the presence of a copy action. -/
theorem claim_C4_changed_iff_witness :
    (∃ tr, sync_file_versions false "w.ini"
        [((["A", "w.ini"] : FsPath), Props.mk 1 1 0)] "Configurations"
        [] (fun _ => true) (fun _ => []) = some (true, tr)) ∧
    ∃ b tr, sync_file_versions false "w.ini"
        [(["A", "w.ini"], Props.mk 1 1 0), (["B", "w.ini"], Props.mk 2 2 0)]
        "Configurations" [] (fun _ => true) (fun _ => ['1']) = some (b, tr) ∧
      (b = true ↔ ∃ s d, Act.copy2 s d ∈ tr) :=
  ⟨claim_C4_changed_iff.1 false "w.ini" "Configurations" [] (fun _ => true)
      (fun _ => []) (["A", "w.ini"], Props.mk 1 1 0),
    _, _, rfl,
    claim_C4_changed_iff.2 "w.ini" "Configurations" [] (fun _ => true)
      (fun _ => ['1']) (["A", "w.ini"], Props.mk 1 1 0)
      (["B", "w.ini"], Props.mk 2 2 0) [] _ _ rfl⟩

/-- C1 (evidence for the code bug): with two differing copies of the root
file `reaper-themeconfig.ini`, the automatic-replace body emits a real
`shutil.copy2` — `autoEntry`, like the Python `auto_update_root_files` it
embeds, consults no test-mode flag, so the same copy executes under
`--test`.  By contrast the code paths that do consult `TEST_MODE` emit no
copy in test mode: the single-copy interactive branch run in test mode emits
zero `copy2` actions (though it still runs `os.makedirs`, a directory
creation, even in test mode), and `log_or_write` in test mode is
log-only. -/
theorem claim_C1_dry_run_mutates :
    (Act.copy2 ["C", "reaper-themeconfig.ini"] ["D", "reaper-themeconfig.ini"] ∈
      (autoEntry [Loc.mk "Notebook Config" ["D"], Loc.mk "Main Config" ["C"]]
        "reaper-themeconfig.ini"
        [(["D", "reaper-themeconfig.ini"], Props.mk 10 5 0),
         (["C", "reaper-themeconfig.ini"], Props.mk 10 7 0)]
        (fun _ => true)).getD []) ∧
    (Act.makedirs ["B", "FXChains"] ∈
      ((sync_file_versions true "lead.fxp"
        [(["A", "FXChains", "lead.fxp"], Props.mk 3 1 0)] "FXChains"
        [Loc.mk "A" ["A"], Loc.mk "B" ["B"]]
        (fun p => p == ["A", "FXChains", "lead.fxp"])
        (fun _ => ['y'])).map Prod.snd).getD []) ∧
    (((sync_file_versions true "lead.fxp"
        [(["A", "FXChains", "lead.fxp"], Props.mk 3 1 0)] "FXChains"
        [Loc.mk "A" ["A"], Loc.mk "B" ["B"]]
        (fun p => p == ["A", "FXChains", "lead.fxp"])
        (fun _ => ['y'])).map Prod.snd).getD []).countP
      (fun a => match a with | Act.copy2 _ _ => true | _ => false) = 0 ∧
    log_or_write true CopyKind.copy ["A", "x"] ["B", "x"] =
      [Act.log (.wouldCopy CopyKind.copy ["A", "x"] ["B", "x"])] := by
  refine ⟨by decide, by decide, by decide, by decide⟩

/-- C2 (evidence for the code bug): with two copies whose newer version lives
at `B`, the operator input `"0"` — not a number in the valid range `1..2` —
is accepted: Python `int("0") - 1 = -1` indexes the sorted list from the end,
selecting the OLDEST copy, and the pass overwrites the newer copy at `B` with
it and reports the file as changed, instead of treating the input as "no
action". -/
theorem claim_C2_zero_choice_overwrites :
    ((sync_file_versions false "f.ini"
        [(["A", "Configurations", "f.ini"], Props.mk 5 1 0),
         (["B", "Configurations", "f.ini"], Props.mk 7 2 0)]
        "Configurations" [Loc.mk "A" ["A"], Loc.mk "B" ["B"]]
        (fun _ => true) (fun _ => ['0'])).map Prod.fst).getD false = true ∧
    (Act.copy2 ["A", "Configurations", "f.ini"] ["B", "Configurations", "f.ini"] ∈
      ((sync_file_versions false "f.ini"
        [(["A", "Configurations", "f.ini"], Props.mk 5 1 0),
         (["B", "Configurations", "f.ini"], Props.mk 7 2 0)]
        "Configurations" [Loc.mk "A" ["A"], Loc.mk "B" ["B"]]
        (fun _ => true) (fun _ => ['0'])).map Prod.snd).getD []) := by
  refine ⟨by decide, by decide⟩

/-- Witness for the amended C10: the round trip is the identity on a concrete
three-section document. -/
theorem claim_C10_roundtrip_witness :
    overwrite_section ([[';', 'c', '\n']] ++ ['[', 's', ']', '\n'] ::
        ([['k', '=', 'v', '\n']] ++ [['[', 't', ']', '\n'], ['w', '\n']])) ['s']
        (get_section ([[';', 'c', '\n']] ++ ['[', 's', ']', '\n'] ::
          ([['k', '=', 'v', '\n']] ++ [['[', 't', ']', '\n'], ['w', '\n']])) ['s']) =
      [[';', 'c', '\n']] ++ ['[', 's', ']', '\n'] ::
        ([['k', '=', 'v', '\n']] ++ [['[', 't', ']', '\n'], ['w', '\n']]) :=
  claim_C10_roundtrip ['s'] [[';', 'c', '\n']] [['k', '=', 'v', '\n']]
    [['[', 't', ']', '\n'], ['w', '\n']] ['[', 's', ']', '\n']
    (by decide) (by decide) (by decide)
    (Or.inr ⟨['[', 't', ']', '\n'], [['w', '\n']], rfl, by decide, by decide⟩)
    (by decide)

example :
    overwrite_section [['[', 's', ']', '\n'], ['a', '\n'], ['[', 't', ']', '\n']]
      ['s'] ['[', 'S', ']', '\n', 'b', '\n'] =
      [['[', 'S', ']', '\n'], ['b', '\n'], ['[', 't', ']', '\n']] := by decide
